import Mathlib

/-!
Shallow embedding of the ASFEniCSx active-subspace estimation engine
(`src/ASFEniCSx/asfenicsx.py`) and its sample container
(`src/ASFEniCSx/sampling.py`).

Conventions used throughout:
* numpy floating point arrays are modelled over `ℚ` (exact arithmetic);
  a 2-D array is a `List (List ℚ)`.
* The gradient matrix and the sample array are stored as lists of ROWS
  (as in the source, where `gradients[i,:]` is sample `i`).
* Eigenvector matrices are stored as lists of COLUMNS, so that the numpy
  column operations `W[:, idx]`, `W[:, :n]`, `W[:, n:]` of the source are
  `List.map`, `List.take` and `List.drop`.  The first row `W[0, :]` is the
  list of heads of the columns.
* Python exceptions are collapsed into the inductive `PyErr`; fallible
  methods return `Except PyErr _`.  Note that in Python 3 a bare
  `raise("message")` statement (used twice in `ASFEniCSx.partition`)
  raises a `TypeError` (`exceptions must derive from BaseException`),
  not an error carrying the message; this is modelled by `PyErr.typeError`.
* External effects that the code consumes are passed as explicit
  parameters: the values drawn by `np.random.*` (`rand` parameters),
  the raw output of the LAPACK eigensolver `np.linalg.eigh` (`eigh`
  parameters), and the real-valued spectral norm `np.linalg.norm(·, ord=2)`
  (a `norm2` parameter).  All post-processing of those values is
  translated from the source.
-/

deriving instance DecidableEq for Except

namespace ASF

/-- Python exception kinds raised by the modelled code. -/
inductive PyErr where
  | assertionError
  | attributeError
  | typeError
  | valueError
  deriving DecidableEq, Repr

/-- Shape check for a 2-D array: `A.shape == (r, c)`. -/
def isShape (A : List (List ℚ)) (r c : Nat) : Bool :=
  A.length == r && A.all (fun row => row.length == c)

/-! ## The sample container (`sampling.py`, class `sampling`) -/

/-- Instance state of a `sampling` object.  `array` models the `_array`
attribute (`none` before it is first set; `__init__` always sets it) and
`values` models the optional `_values` attribute. -/
structure SamplingState where
  M : Nat
  m : Nat
  array : Option (List (List ℚ))
  values : Option (List ℚ)
  deriving DecidableEq, Repr

/-- Constructor `sampling.__init__(M, m)`: asserts `M > 0` and `m > 0`,
then calls `random_uniform()`, which finds no `_array` attribute and
stores the freshly drawn `M × m` uniform sample array (passed here as
`rand`). -/
def sampling.init (M m : Nat) (rand : List (List ℚ)) : Except PyErr SamplingState :=
  if M = 0 then .error .assertionError
  else if m = 0 then .error .assertionError
  else .ok { M := M, m := m, array := some rand, values := none }

/-- Method `random_uniform(overwrite)`: stores the drawn array `rand` if no
sample array exists or `overwrite` is set, otherwise raises
`AttributeError`. -/
def random_uniform (s : SamplingState) (rand : List (List ℚ)) (overwrite : Bool) :
    Except PyErr SamplingState :=
  if s.array.isNone || overwrite then .ok { s with array := some rand }
  else .error .attributeError

/-- Method `extract(index)`: asserts `0 ≤ index < M`, then returns row
`index` of `_array`. -/
def extract (s : SamplingState) (index : Nat) : Except PyErr (List ℚ) :=
  if index < s.M then .ok ((s.array.getD []).getD index [])
  else .error .assertionError

/-- Method `replace(index, sample)`: asserts the index bound and
`sample.shape == (m,)`, then overwrites row `index` in place. -/
def replace (s : SamplingState) (index : Nat) (sample : List ℚ) :
    Except PyErr SamplingState :=
  if ¬ index < s.M then .error .assertionError
  else if ¬ sample.length = s.m then .error .assertionError
  else .ok { s with array := some ((s.array.getD []).set index sample) }

/-- Method `add_sample(sample)`: when `sample is None` a fresh uniform
draw (`rand`) is used, otherwise `sample.shape == (m,)` is asserted; the
row is appended with `np.vstack` and `M` is incremented.  The `_values`
attribute is not touched. -/
def add_sample (s : SamplingState) (sample : Option (List ℚ)) (rand : List ℚ) :
    Except PyErr SamplingState :=
  match sample with
  | none => .ok { s with array := some ((s.array.getD []) ++ [rand]), M := s.M + 1 }
  | some smp =>
      if smp.length = s.m then
        .ok { s with array := some ((s.array.getD []) ++ [smp]), M := s.M + 1 }
      else .error .assertionError

/-- Method `samples()`: `return self._array` (the value seen by the
caller; the reference semantics of this `return` are modelled separately
in the heap section below). -/
def samples (s : SamplingState) : List (List ℚ) := s.array.getD []

/-- Method `assign_values(f)`: `np.apply_along_axis(f, 1, self._array)`
applies `f` to every row of the sample array and stores the results as
`_values`. -/
def assign_values (s : SamplingState) (f : List ℚ → ℚ) : SamplingState :=
  { s with values := some ((s.array.getD []).map f) }

/-- Method `assign_value(index, value)`: asserts the index bound, creates
`_values = np.zeros(M)` if absent, then sets entry `index`. -/
def assign_value (s : SamplingState) (index : Nat) (value : ℚ) :
    Except PyErr SamplingState :=
  if ¬ index < s.M then .error .assertionError
  else
    let vs := match s.values with
      | none => List.replicate s.M 0
      | some v => v
    .ok { s with values := some (vs.set index value) }

/-- The numpy membership test `sample in self._array` used by
`sampling.index`: for a 1-D `sample` and a 2-D array it is
`(self._array == sample).any()`, where `==` broadcasts `sample` across
the rows.  A row "matches" as soon as it agrees with `sample` in at
least one position. -/
def rowAnyMatch (row sample : List ℚ) : Bool :=
  (List.zipWith (fun a b => decide (a = b)) row sample).any id

/-- Broadcast membership `sample in arr` for a 2-D numpy array. -/
def npContains (arr : List (List ℚ)) (sample : List ℚ) : Bool :=
  arr.any (fun row => rowAnyMatch row sample)

/-- Method `index(sample)`: asserts `sample.shape == (m,)` and the numpy
broadcast membership `sample in self._array`, then returns
`np.where(self._array == sample)[0][0]`: the first row index at which the
broadcast comparison holds anywhere in the row. -/
def index (s : SamplingState) (sample : List ℚ) : Except PyErr Nat :=
  if ¬ sample.length = s.m then .error .assertionError
  else if ¬ npContains (s.array.getD []) sample then .error .assertionError
  else .ok ((s.array.getD []).findIdx (fun row => rowAnyMatch row sample))

/-- The record written by `sampling.save` and read by `sampling.load`.
Modelled from the spec: `save` serializes `self.__dict__` through
`NumpyEncoder` (defined in `ASFEniCSx/utils.py`, which is not under
`src/`); per spec section 6 the persistence format is a structured record
holding the sample coordinate array (shape `M × m`) and, optionally, the
value array.  The encoder turns numpy arrays into (nested) lists of
numbers, which over `ℚ` is the identity. -/
structure SavedRecord where
  arrayData : List (List ℚ)
  valuesData : Option (List ℚ)
  deriving DecidableEq, Repr

/-- Method `save(filename)`: dumps the instance dictionary; the `_array`
entry is always present (set by `__init__`) and the `_values` entry is
present exactly when values have been assigned. -/
def save (s : SamplingState) : SavedRecord :=
  { arrayData := s.array.getD [], valuesData := s.values }

/-- Method `load(data, overwrite)`: asserts
`np.asarray(data["_array"]).shape == (M, m)`, then installs the loaded
array if no `_array` exists or `overwrite` is set (also installing
`_values` when the record has one), otherwise raises `AttributeError`. -/
def load (s : SamplingState) (data : SavedRecord) (overwrite : Bool) :
    Except PyErr SamplingState :=
  if ¬ isShape data.arrayData s.M s.m then .error .assertionError
  else if s.array.isNone || overwrite then
    .ok { s with array := some data.arrayData,
                 values := match data.valuesData with
                   | some v => some v
                   | none => s.values }
  else .error .attributeError

/-- The coordinate part of the container invariant: the sample array
exists and has shape `(M, m)`. -/
def coordInv (s : SamplingState) : Bool :=
  match s.array with
  | some A => isShape A s.M s.m
  | none => false

/-- The value part of the container invariant: the value array, when
present, has length `M`. -/
def valInv (s : SamplingState) : Bool :=
  match s.values with
  | some v => v.length == s.M
  | none => true

/-! ## The estimation engine (`asfenicsx.py`, class `ASFEniCSx`) -/

/-- Instance state of an `ASFEniCSx` object.  `k`, `M` and `m` copy
`self.k`, `self.samples.M` and `self.samples.m`; the `Option` fields model
the attributes `gradients`, `_eigenvalues`, `_eigenvectors` and `W1`,
which exist only after the corresponding method has run. -/
structure EngineState where
  k : Nat
  M : Nat
  m : Nat
  gradients : Option (List (List ℚ))
  eigvals : Option (List ℚ)
  eigvecs : Option (List (List ℚ))
  W1 : Option (List (List ℚ))
  deriving DecidableEq, Repr

/-- Constructor `ASFEniCSx.__init__(k, function, samples)`: asserts
`k <= samples.m` and stores the collaborators; no derived attribute is
set yet. -/
def engineInit (k M m : Nat) : Except PyErr EngineState :=
  if k ≤ m then
    .ok { k := k, M := M, m := m, gradients := none,
          eigvals := none, eigvecs := none, W1 := none }
  else .error .assertionError

/-- The guard `hasattr(self, 'eigenvalues')` used by `partition` (line
164) and `bootstrap` (line 189).  The name `eigenvalues` resolves to the
*method* `ASFEniCSx.eigenvalues` defined on the class (line 69), so the
check is `true` on every instance, whether or not `_eigenvalues` has been
computed. -/
def hasattr_eigenvalues (_ : EngineState) : Bool := true

/-- `np.outer(u, v)`: the matrix with rows `u[a] * v`. -/
def np_outer (u v : List ℚ) : List (List ℚ) :=
  u.map fun a => v.map fun b => a * b

/-- Elementwise matrix addition `A + B` of two same-shaped numpy
arrays. -/
def matAdd (A B : List (List ℚ)) : List (List ℚ) :=
  List.zipWith (List.zipWith (· + ·)) A B

/-- `np.zeros([r, c])`. -/
def matZeros (r c : Nat) : List (List ℚ) :=
  List.replicate r (List.replicate c 0)

/-- Elementwise division `A / q` of a numpy array by a scalar. -/
def matDivScalar (A : List (List ℚ)) (q : ℚ) : List (List ℚ) :=
  A.map (List.map (· / q))

/-- Method `covariance(gradients)`: starts from `np.zeros([m, m])`,
accumulates `np.outer(gradients[i,:], gradients[i,:])` for
`i in range(self.samples.M)`, and divides by `self.samples.M`. -/
def covariance (M m : Nat) (gradients : List (List ℚ)) : List (List ℚ) :=
  matDivScalar
    ((List.range M).foldl
      (fun acc i => matAdd acc (np_outer (gradients.getD i []) (gradients.getD i [])))
      (matZeros m m))
    (M : ℚ)

/-- Specification formula of spec section 4.3 for the covariance
estimator, written from the spec words: the `m × m` matrix
`(1/M) * Σ_i g_i g_iᵀ` over the rows `g_i` of the gradient matrix.
It is compared with `covariance` (translated from the source) in the
theorem for claim C5. -/
def specCovariance (M m : Nat) (G : List (List ℚ)) : List (List ℚ) :=
  matDivScalar (G.foldl (fun acc g => matAdd acc (np_outer g g)) (matZeros m m)) (M : ℚ)

/-- `np.sign` on a scalar. -/
def sgn (q : ℚ) : ℚ := if q < 0 then -1 else if 0 < q then 1 else 0

/-- The per-column factor of the sign-normalization step of
`calculate_eigenpairs`: `normalization = np.sign(W[0, :])` followed by
`normalization[normalization == 0] = 1`.  For a column its entry of
`W[0, :]` is the column's head. -/
def normFactor (col : List ℚ) : ℚ :=
  let s := sgn (col.headD 0)
  if s = 0 then 1 else s

/-- The sign-normalization `W = W * normalization` applied to one
column. -/
def signNormalize (col : List ℚ) : List ℚ :=
  col.map (fun x => x * normFactor col)

/-- The index list `idx = e.argsort()[::-1]` of `calculate_eigenpairs`
(computed after `e = abs(e)`, so `e` here is already the list of
magnitudes): indices of `e` sorted ascending by value, then reversed.
`np.argsort` leaves the order of ties unspecified; a stable insertion
sort is one admissible realization. -/
def sortedIdx (e : List ℚ) : List Nat :=
  (List.insertionSort (fun i j => e.getD i 0 ≤ e.getD j 0) (List.range e.length)).reverse

/-- The eigenvalue output `e = abs(e); e = e[idx]` of
`calculate_eigenpairs`, for raw eigensolver output `e`. -/
def permutedVals (e : List ℚ) : List ℚ :=
  let eAbs := e.map (fun x => |x|)
  (sortedIdx eAbs).map (fun i => eAbs.getD i 0)

/-- The column permutation `W = W[:, idx]` of `calculate_eigenpairs`,
for raw eigensolver output `(e, W)` (`W` as a list of columns). -/
def permutedCols (e : List ℚ) (W : List (List ℚ)) : List (List ℚ) :=
  let eAbs := e.map (fun x => |x|)
  (sortedIdx eAbs).map (fun i => W.getD i [])

/-- Method `calculate_eigenpairs(matrix)`, starting from the raw output
`(e, W)` of the external eigensolver `np.linalg.eigh(matrix)` (for a
symmetric input `eigh` returns some real eigenvalue vector `e` and
orthonormal eigenvector columns `W`; both are taken as parameters here,
quantifying over all raw outputs).  The translated post-processing is:
`e = abs(e)`, `idx = e.argsort()[::-1]`, `e = e[idx]`, `W = W[:, idx]`,
then the sign normalization of `W` by the signs of its first row. -/
def calculate_eigenpairs (e : List ℚ) (W : List (List ℚ)) :
    List ℚ × List (List ℚ) :=
  (permutedVals e, (permutedCols e W).map signNormalize)

/-- Method `partition(n)`: the (always-true) `hasattr` guard, the range
guard `n > self.samples.m` (whose `raise("...")` would itself raise
`TypeError`), then the column slices `W1 = self._eigenvectors[:, :n]`,
`W2 = self._eigenvectors[:, n:]`, storing `W1` on the instance.  When
`_eigenvectors` has not been computed the attribute access raises
`AttributeError`. -/
def partition (s : EngineState) (n : Nat) :
    Except PyErr (EngineState × List (List ℚ) × List (List ℚ)) :=
  if ¬ hasattr_eigenvalues s then .error .typeError
  else if n > s.m then .error .typeError
  else match s.eigvecs with
    | none => .error .attributeError
    | some W =>
        let W1 := W.take n
        let W2 := W.drop n
        .ok ({ s with W1 := some W1 }, W1, W2)

/-- Dot product of two equal-length vectors. -/
def dot (u v : List ℚ) : ℚ := (List.zipWith (· * ·) u v).sum

/-- The matrix product `Aᵀ B` for `A`, `B` given as lists of columns:
entry `(r, c)` is the dot product of column `r` of `A` with column `c`
of `B`; the result is a list of rows. -/
def matTmul (A B : List (List ℚ)) : List (List ℚ) :=
  A.map (fun a => B.map (fun b => dot a b))

/-- The replicate eigenvector matrix `U` of one `bootstrap` iteration
`i`: rows of the cached gradient matrix are resampled at the indices
`randIdx i` drawn by `np.random.randint` (`gradients[bootstrap_indices,:]
.copy()`), the covariance of the replicate is formed, and
`calculate_eigenpairs` is applied to the raw eigensolver output
(`eigh`) of that covariance matrix. -/
def bootReplicateU (M m : Nat) (G : List (List ℚ)) (randIdx : Nat → List Nat)
    (eigh : List (List ℚ) → List ℚ × List (List ℚ)) (i : Nat) :
    List (List ℚ) :=
  let replicate := (randIdx i).map (fun j => G.getD j [])
  let raw := eigh (covariance M m replicate)
  (calculate_eigenpairs raw.1 raw.2).2

/-- The `subspace_distances` matrix of `bootstrap`: initialized with
`np.zeros([m, M_boot])`, and for each replicate `i` the loop
`for j in range(self.samples.m - 1)` fills entry `(j, i)` with
`np.linalg.norm(np.dot(self._eigenvectors[:, :j+1].T, U[:, j+1:]), ord=2)`
(the real-valued spectral norm is the parameter `norm2`).  Row `m - 1`
is never written. -/
def bootstrap_distances (M m M_boot : Nat) (G W : List (List ℚ))
    (randIdx : Nat → List Nat)
    (eigh : List (List ℚ) → List ℚ × List (List ℚ))
    (norm2 : List (List ℚ) → ℚ) : List (List ℚ) :=
  (List.range m).map fun j =>
    (List.range M_boot).map fun i =>
      if j < m - 1 then
        norm2 (matTmul (W.take (j + 1))
          ((bootReplicateU M m G randIdx eigh i).drop (j + 1)))
      else 0

/-- `np.max` of a 1-D array (numpy raises on an empty array; the claims
only use it on arrays of length `M_boot ≥ 1`). -/
def npMaxRow (row : List ℚ) : ℚ :=
  match row with
  | [] => 0
  | x :: xs => xs.foldl max x

/-- `np.min` of a 1-D array. -/
def npMinRow (row : List ℚ) : ℚ :=
  match row with
  | [] => 0
  | x :: xs => xs.foldl min x

/-- `np.mean` of a 1-D array. -/
def npMeanRow (row : List ℚ) : ℚ := row.sum / (row.length : ℚ)

/-- The subspace-distance aggregates of `bootstrap`:
`sub_max = np.max(subspace_distances, axis=1)`,
`sub_min = np.min(subspace_distances, axis=1)`,
`sub_mean = np.mean(subspace_distances, axis=1)`, returned as
`[sub_max, sub_min, sub_mean]`. -/
def bootstrap_sub (M m M_boot : Nat) (G W : List (List ℚ))
    (randIdx : Nat → List Nat)
    (eigh : List (List ℚ) → List ℚ × List (List ℚ))
    (norm2 : List (List ℚ) → ℚ) : List ℚ × List ℚ × List ℚ :=
  let D := bootstrap_distances M m M_boot G W randIdx eigh norm2
  (D.map npMaxRow, D.map npMinRow, D.map npMeanRow)

/-! ## Reference semantics of the accessors

Python hands numpy arrays around by object reference, so whether an
accessor returns `self._attr` itself, a slice view of it, or
`np.copy(self._attr)` decides whether the caller can mutate the
instance's internal state.  To state this, arrays live in an explicit
heap of numpy objects addressed by `Addr`; 1-D arrays are stored as a
single row.  A numpy basic slice such as `W[:, n:]` is a view: a base
address plus a column offset, writes through which land in the base
object's buffer. -/

/-- Address of a numpy array object in the heap. -/
abbrev Addr := Nat

/-- A heap of numpy array objects. -/
structure Heap where
  data : List (List (List ℚ))
  deriving DecidableEq, Repr

/-- Read the whole array stored at an address. -/
def Heap.get (h : Heap) (a : Addr) : List (List ℚ) := h.data.getD a []

/-- Allocate a new array object, returning the extended heap and the
fresh address. -/
def Heap.alloc (h : Heap) (mat : List (List ℚ)) : Heap × Addr :=
  (⟨h.data ++ [mat]⟩, h.data.length)

/-- Overwrite entry `(i, j)` of an array value. -/
def setEntry (A : List (List ℚ)) (i j : Nat) (v : ℚ) : List (List ℚ) :=
  A.set i ((A.getD i []).set j v)

/-- An in-place caller-side write `arr[i, j] = v` through an object
reference. -/
def Heap.writeEntry (h : Heap) (a : Addr) (i j : Nat) (v : ℚ) : Heap :=
  ⟨h.data.set a (setEntry (h.data.getD a []) i j v)⟩

/-- `np.copy(arr)`: allocates an independent copy of the object at `a`. -/
def np_copy (h : Heap) (a : Addr) : Heap × Addr := h.alloc (h.get a)

/-- A numpy basic-slice view `base[:, colOff:...]`: no buffer of its own,
writes go to the base object shifted by the column offset. -/
structure NpView where
  base : Addr
  colOff : Nat
  deriving DecidableEq, Repr

/-- An in-place caller-side write `view[i, j] = v` through a column-slice
view. -/
def Heap.writeView (h : Heap) (w : NpView) (i j : Nat) (v : ℚ) : Heap :=
  h.writeEntry w.base i (w.colOff + j) v

/-- Reference-level state of a `sampling` object: the `_array` attribute
is an object reference. -/
structure SamplingRef where
  M : Nat
  m : Nat
  arrayAddr : Addr
  deriving DecidableEq, Repr

/-- Reference-level `samples()`: `return self._array` returns the
internal array object itself, not a copy (sampling.py line 147). -/
def samplesRef (s : SamplingRef) : Addr := s.arrayAddr

/-- Reference-level state of an engine whose eigendecomposition has been
computed: `_eigenvectors` and `_eigenvalues` are object references. -/
structure EngineRef where
  eigvecsAddr : Addr
  eigvalsAddr : Addr
  deriving DecidableEq, Repr

/-- Reference-level return value of `estimation()`:
`return (self._eigenvectors, self._eigenvalues)` hands out the two
internal objects themselves (asfenicsx.py line 151). -/
def estimationRef (s : EngineRef) : Addr × Addr := (s.eigvecsAddr, s.eigvalsAddr)

/-- Reference-level return value of `partition(n)` (after its guards):
`W1 = self._eigenvectors[:, :n]` and `W2 = self._eigenvectors[:, n:]` are
slice views into the internal eigenvector object (asfenicsx.py lines
171-172). -/
def partitionRef (s : EngineRef) (n : Nat) : NpView × NpView :=
  ({ base := s.eigvecsAddr, colOff := 0 }, { base := s.eigvecsAddr, colOff := n })

/-- Reference-level `eigenvalues()` accessor:
`return np.copy(self._eigenvalues)` allocates and returns an independent
copy (asfenicsx.py line 77). -/
def eigenvaluesRef (h : Heap) (s : EngineRef) : Heap × Addr :=
  np_copy h s.eigvalsAddr

/-! ## Concrete instances used by witnesses -/

/-- A concrete bootstrap index draw (every replicate resamples row 0). -/
def cRandIdx : Nat → List Nat := fun _ => [0]

/-- A concrete raw eigensolver output for a 2-dimensional problem. -/
def cEigh : List (List ℚ) → List ℚ × List (List ℚ) :=
  fun _ => ([1, 1], [[1, 0], [0, 1]])

/-- A concrete stand-in for the spectral norm values. -/
def cNorm2 : List (List ℚ) → ℚ := fun _ => 5

/-- A concrete sample container state with one valued 1-dimensional
sample. -/
def cSampA : SamplingState := ⟨1, 1, some [[0]], some [5]⟩

/-- A concrete sample container state with coordinate array
`[[5, 2], [1, 2]]` and no values. -/
def cSampB : SamplingState := ⟨2, 2, some [[5, 2], [1, 2]], none⟩

/-- A concrete sample container state with coordinate array
`[[1, 2], [3, 4]]` and no values. -/
def cSampC : SamplingState := ⟨2, 2, some [[1, 2], [3, 4]], none⟩

/-- A concrete sample container state holding the coordinate `[[1/2]]`
and the value array `[3]`. -/
def cSampD : SamplingState := ⟨1, 1, some [[1/2]], some [3]⟩

/-- A concrete fresh engine state: `__init__` has run (with `k = 1`,
`samples.M = 3`, `samples.m = 2`) but nothing has been computed. -/
def cEngineFresh : EngineState := ⟨1, 3, 2, none, none, none, none⟩

/-- A concrete engine state whose eigendecomposition has been computed,
with eigenvector columns `[[1, 0], [0, 1]]`. -/
def cEngineEst : EngineState :=
  ⟨1, 3, 2, some [[1, 2]], some [2, 1], some [[1, 0], [0, 1]], none⟩

/-!
## Claim theorems
-/

/-- C1: on a freshly constructed engine (no eigendecomposition yet),
`partition(1)` does not fail through its state-error guard: the guard
`hasattr(self, 'eigenvalues')` is satisfied by the *method* named
`eigenvalues`, so execution proceeds to `self._eigenvectors[:, :n]` and
fails there with `AttributeError` (and had the guard fired, its
`raise("...")` of a string would raise `TypeError`, not a state error).
The engine state is unchanged only because the failure aborts the call. -/
theorem partition_before_estimation_not_state_error :
    engineInit 1 3 2 = Except.ok cEngineFresh ∧
    hasattr_eigenvalues cEngineFresh = true ∧
    partition cEngineFresh 1 = Except.error PyErr.attributeError := by
  decide

/-- C2 counterexample: `samples()` returns the internal `_array` object
itself (the same heap address), so an in-place write through the returned
array changes the instance's internal array — here from `[[0]]` to
`[[7]]` — refuting the claim that mutating the returned array cannot
change internal state. -/
theorem samples_mutation_changes_internal_cex :
    samplesRef ⟨1, 1, 0⟩ = (⟨1, 1, 0⟩ : SamplingRef).arrayAddr ∧
    Heap.get ⟨[[[0]]]⟩ ((⟨1, 1, 0⟩ : SamplingRef).arrayAddr) = [[0]] ∧
    Heap.get (Heap.writeEntry ⟨[[[0]]]⟩ (samplesRef ⟨1, 1, 0⟩) 0 0 7)
      ((⟨1, 1, 0⟩ : SamplingRef).arrayAddr) = [[7]] := by
  decide

/-- C6 counterexample: a container of the same `(M, m) = (1, 1)` freshly
constructed from `sampling.init` already owns a sample array (the
constructor's `random_uniform` draw), so `load` with the default
`overwrite = False` refuses with `AttributeError` instead of reproducing
the saved arrays. -/
theorem save_load_fresh_default_refuses_cex :
    sampling.init 1 1 [[0]] = Except.ok ⟨1, 1, some [[0]], none⟩ ∧
    load ⟨1, 1, some [[0]], none⟩ (save cSampD) false
      = Except.error PyErr.attributeError := by
  decide

/-- C7 counterexample: `add_sample` appends a coordinate row and
increments `M`, but leaves an existing `_values` array untouched, so the
value-length invariant `len(_values) = M` is broken: starting from a
state satisfying both invariants (`M = 1`, one value), the new state has
`M = 2` but still one value. -/
theorem add_sample_breaks_value_invariant_cex :
    coordInv cSampA = true ∧ valInv cSampA = true ∧
    add_sample cSampA (some [1]) []
      = Except.ok ⟨2, 1, some [[0], [1]], some [5]⟩ ∧
    valInv ⟨2, 1, some [[0], [1]], some [5]⟩ = false := by
  decide

/-- Reading a mapped list with `getD`: taking absolute values commutes
with the default read, because the default `0` is its own absolute
value. -/
theorem getD_map_abs (e : List ℚ) (i : Nat) :
    (e.map (fun x => |x|)).getD i 0 = |e.getD i 0| := by
  rcases lt_or_ge i e.length with h | h
  · rw [List.getD_eq_getElem _ _ (by simpa using h), List.getD_eq_getElem _ _ h,
      List.getElem_map]
  · rw [List.getD_eq_default _ _ (by simpa using h), List.getD_eq_default _ _ h, abs_zero]

/-- Reading a sign-normalized column list with `getD`: the map commutes
with the default read, because the empty default is fixed by
`signNormalize`. -/
theorem getD_map_signNormalize (L : List (List ℚ)) (j : Nat) :
    (L.map signNormalize).getD j [] = signNormalize (L.getD j []) := by
  rcases lt_or_ge j L.length with h | h
  · rw [List.getD_eq_getElem _ _ (by simpa using h), List.getD_eq_getElem _ _ h,
      List.getElem_map]
  · rw [List.getD_eq_default _ _ (by simpa using h), List.getD_eq_default _ _ h]
    rfl

/-- The head of a sign-normalized column is non-negative. -/
theorem headD_signNormalize_nonneg (c : List ℚ) : 0 ≤ (signNormalize c).headD 0 := by
  cases c with
  | nil => simp [signNormalize]
  | cons x xs =>
      show 0 ≤ x * normFactor (x :: xs)
      unfold normFactor sgn
      rcases lt_trichotomy x 0 with hx | hx | hx
      · simp only [List.headD_cons, if_pos hx]
        rw [if_neg (by norm_num)]
        nlinarith
      · subst hx; simp
      · simp only [List.headD_cons, if_neg (asymm hx), if_pos hx]
        rw [if_neg one_ne_zero, mul_one]
        exact le_of_lt hx

/-- A column whose head is zero is left unchanged by the sign
normalization (the zero sign is replaced by the factor `1`). -/
theorem signNormalize_of_headD_zero (c : List ℚ) (hc : c.headD 0 = 0) :
    signNormalize c = c := by
  unfold signNormalize normFactor sgn
  rw [hc]
  simp

/-- C3: for every raw output `(e, W)` of the symmetric eigensolver (and
hence for every real symmetric input matrix), `calculate_eigenpairs`
returns an eigenvalue vector whose entries are all non-negative and
non-increasing, and its eigenvector columns are the sign-normalized
input columns permuted by the same index permutation that sorts the
eigenvalue magnitudes. -/
theorem eigenpairs_sorted_nonneg_permuted (e : List ℚ) (W : List (List ℚ)) :
    (∀ x ∈ (calculate_eigenpairs e W).1, 0 ≤ x) ∧
    List.Chain' (fun a b => b ≤ a) (calculate_eigenpairs e W).1 ∧
    ∃ idx : List Nat, idx.Perm (List.range e.length) ∧
      (calculate_eigenpairs e W).1 = idx.map (fun i => |e.getD i 0|) ∧
      (calculate_eigenpairs e W).2 = idx.map (fun i => signNormalize (W.getD i [])) := by
  have habs : ∀ i : Nat, (e.map (fun x => |x|)).getD i 0 = |e.getD i 0| := getD_map_abs e
  have hlen : (e.map (fun x => |x|)).length = e.length := List.length_map _ _
  refine ⟨?_, ?_, ?_⟩
  · intro x hx
    simp only [calculate_eigenpairs, permutedVals, List.mem_map] at hx
    obtain ⟨i, -, rfl⟩ := hx
    rw [habs]
    exact abs_nonneg _
  · show List.Chain' (fun a b => b ≤ a) (permutedVals e)
    have hperm : permutedVals e
        = ((List.insertionSort
              (fun i j => (e.map (fun x => |x|)).getD i 0 ≤ (e.map (fun x => |x|)).getD j 0)
              (List.range (e.map (fun x => |x|)).length)).map
            (fun i => (e.map (fun x => |x|)).getD i 0)).reverse := by
      rw [← List.map_reverse]
      rfl
    rw [hperm]
    refine (List.pairwise_reverse.mpr ?_).chain'
    haveI : IsTotal Nat
        (fun i j => (e.map (fun x => |x|)).getD i 0 ≤ (e.map (fun x => |x|)).getD j 0) :=
      ⟨fun a b => le_total _ _⟩
    haveI : IsTrans Nat
        (fun i j => (e.map (fun x => |x|)).getD i 0 ≤ (e.map (fun x => |x|)).getD j 0) :=
      ⟨fun a b c hab hbc => le_trans hab hbc⟩
    exact (List.sorted_insertionSort _ _).map _ (fun a b hab => hab)
  · refine ⟨sortedIdx (e.map (fun x => |x|)), ?_, ?_, ?_⟩
    · have h3 : (sortedIdx (e.map fun x => |x|)).Perm
          (List.range (e.map fun x => |x|).length) := by
        unfold sortedIdx
        exact (List.reverse_perm _).trans (List.perm_insertionSort _ _)
      simpa using h3
    · show permutedVals e = _
      unfold permutedVals
      exact List.map_congr_left (fun i _ => habs i)
    · show (permutedCols e W).map signNormalize = _
      unfold permutedCols
      rw [List.map_map]
      rfl

/-- C3 witness: the theorem instantiated at the concrete raw eigensolver
output `e = [-1, 4]`, `W = [[1, 2], [3, 4]]`, together with the non-negativity
of the concrete leading returned eigenvalue obtained from its first
conjunct. -/
theorem eigenpairs_sorted_nonneg_permuted_witness :
    (0:ℚ) ≤ 4 ∧
    ((∀ x ∈ (calculate_eigenpairs [-1, 4] [[1, 2], [3, 4]]).1, 0 ≤ x) ∧
     List.Chain' (fun a b => b ≤ a) (calculate_eigenpairs [-1, 4] [[1, 2], [3, 4]]).1 ∧
     ∃ idx : List Nat, idx.Perm (List.range ([-1, 4] : List ℚ).length) ∧
       (calculate_eigenpairs [-1, 4] [[1, 2], [3, 4]]).1
         = idx.map (fun i => |([-1, 4] : List ℚ).getD i 0|) ∧
       (calculate_eigenpairs [-1, 4] [[1, 2], [3, 4]]).2
         = idx.map (fun i => signNormalize (([[1, 2], [3, 4]] : List (List ℚ)).getD i []))) :=
  ⟨(eigenpairs_sorted_nonneg_permuted [-1, 4] [[1, 2], [3, 4]]).1 4 (by decide),
   eigenpairs_sorted_nonneg_permuted [-1, 4] [[1, 2], [3, 4]]⟩

/-- C4: for every raw eigensolver output, every eigenvector column
returned by `calculate_eigenpairs` has a non-negative first coordinate,
and a (permuted) column whose first coordinate is exactly zero is
returned unflipped. -/
theorem eigenvector_sign_convention (e : List ℚ) (W : List (List ℚ)) :
    (∀ col ∈ (calculate_eigenpairs e W).2, 0 ≤ col.headD 0) ∧
    (∀ j : Nat, ((permutedCols e W).getD j []).headD 0 = 0 →
      (calculate_eigenpairs e W).2.getD j [] = (permutedCols e W).getD j []) := by
  constructor
  · intro col hcol
    simp only [calculate_eigenpairs, List.mem_map] at hcol
    obtain ⟨c, -, rfl⟩ := hcol
    exact headD_signNormalize_nonneg c
  · intro j hj
    show ((permutedCols e W).map signNormalize).getD j [] = _
    rw [getD_map_signNormalize]
    exact signNormalize_of_headD_zero _ hj

/-- C4 witness: at the raw output `e = [1, 2]`, `W = [[0, 1], [0, -2]]`
the leading permuted column `[0, -2]` has first coordinate zero and is
returned unchanged, and the other returned column has a non-negative
first coordinate. -/
theorem eigenvector_sign_convention_witness :
    ((permutedCols [1, 2] [[0, 1], [0, -2]]).getD 0 []).headD 0 = 0 ∧
    (calculate_eigenpairs [1, 2] [[0, 1], [0, -2]]).2.getD 0 []
      = (permutedCols [1, 2] [[0, 1], [0, -2]]).getD 0 [] ∧
    0 ≤ ((calculate_eigenpairs [1, 2] [[0, 1], [0, -2]]).2.getD 1 []).headD 0 :=
  ⟨by decide,
   (eigenvector_sign_convention [1, 2] [[0, 1], [0, -2]]).2 0 (by decide),
   (eigenvector_sign_convention [1, 2] [[0, 1], [0, -2]]).1 _ (by
      show (calculate_eigenpairs [1, 2] [[0, 1], [0, -2]]).2.getD 1 []
        ∈ (calculate_eigenpairs [1, 2] [[0, 1], [0, -2]]).2
      norm_num [calculate_eigenpairs, permutedCols, sortedIdx, signNormalize, normFactor,
        sgn, List.insertionSort, List.orderedInsert])⟩

/-- C9: with a computed eigendecomposition, `partition(n)` for
`1 ≤ n ≤ m` succeeds and returns exactly the first `n` eigenvector
columns and the remaining `m - n` columns, whose concatenation
reproduces the eigenvector matrix; `n = m` yields the full matrix and an
empty inactive block. -/
theorem partition_pure_split (s : EngineState) (n : Nat) (W : List (List ℚ))
    (hW : s.eigvecs = some W) (hlen : W.length = s.m)
    (_h1 : 1 ≤ n) (hn : n ≤ s.m) :
    partition s n = Except.ok ({ s with W1 := some (W.take n) }, W.take n, W.drop n) ∧
    W.take n ++ W.drop n = W ∧
    (W.take n).length = n ∧
    (W.drop n).length = s.m - n ∧
    (n = s.m → W.take n = W ∧ W.drop n = []) := by
  refine ⟨?_, List.take_append_drop n W, ?_, ?_, ?_⟩
  · simp [partition, hasattr_eigenvalues, hW, Nat.not_lt.mpr hn]
  · rw [List.length_take, hlen]
    omega
  · rw [List.length_drop, hlen]
  · intro hnm
    have hle : W.length ≤ n := by omega
    exact ⟨List.take_of_length_le hle, List.drop_eq_nil_of_le hle⟩

/-- C9 witness: the theorem at the concrete estimated engine state with
eigenvector columns `[[1, 0], [0, 1]]` and `n = m = 2`. -/
theorem partition_pure_split_witness :
    partition cEngineEst 2
      = Except.ok ({ cEngineEst with
            W1 := some (([[1, 0], [0, 1]] : List (List ℚ)).take 2) },
          ([[1, 0], [0, 1]] : List (List ℚ)).take 2,
          ([[1, 0], [0, 1]] : List (List ℚ)).drop 2) ∧
    ([[1, 0], [0, 1]] : List (List ℚ)).take 2 ++ ([[1, 0], [0, 1]] : List (List ℚ)).drop 2
      = [[1, 0], [0, 1]] ∧
    (([[1, 0], [0, 1]] : List (List ℚ)).take 2).length = 2 ∧
    (([[1, 0], [0, 1]] : List (List ℚ)).drop 2).length = cEngineEst.m - 2 ∧
    (2 = cEngineEst.m →
      ([[1, 0], [0, 1]] : List (List ℚ)).take 2 = [[1, 0], [0, 1]] ∧
      ([[1, 0], [0, 1]] : List (List ℚ)).drop 2 = []) :=
  partition_pure_split cEngineEst 2 [[1, 0], [0, 1]] rfl rfl (by decide) (by decide)

/-- Pointwise addition of lists commutes in its second and third
operands (with numpy truncation semantics for mismatched lengths). -/
theorem zipWith_add_right_comm (a b c : List ℚ) :
    List.zipWith (· + ·) (List.zipWith (· + ·) a b) c
      = List.zipWith (· + ·) (List.zipWith (· + ·) a c) b := by
  induction a generalizing b c with
  | nil => simp
  | cons x xs ih =>
      cases b with
      | nil => cases c <;> simp
      | cons y ys =>
          cases c with
          | nil => simp
          | cons z zs => simp [ih ys zs, add_right_comm]

/-- Matrix addition commutes in its second and third operands. -/
theorem matAdd_right_comm (A B C : List (List ℚ)) :
    matAdd (matAdd A B) C = matAdd (matAdd A C) B := by
  induction A generalizing B C with
  | nil => simp [matAdd]
  | cons a as ih =>
      cases B with
      | nil => cases C <;> simp [matAdd]
      | cons b bs =>
          cases C with
          | nil => simp [matAdd]
          | cons c cs =>
              simp only [matAdd, List.zipWith_cons_cons, List.cons.injEq]
              exact ⟨zipWith_add_right_comm a b c, by simpa only [matAdd] using ih bs cs⟩

/-- Folding a combining function over `List.range l.length` while reading
`l` through `getD` is the same as folding it over `l` itself. -/
theorem foldl_range_getD {α β : Type} (f : β → α → β) (d : α) :
    ∀ (l : List α) (init : β),
      (List.range l.length).foldl (fun acc i => f acc (l.getD i d)) init
        = l.foldl f init := by
  intro l
  induction l using List.reverseRecOn with
  | nil => intro init; simp
  | append_singleton xs x ih =>
      intro init
      have hlen : (xs ++ [x]).length = xs.length + 1 := by simp
      rw [hlen, List.range_succ, List.foldl_append, List.foldl_append]
      have hinner :
          (List.range xs.length).foldl (fun acc i => f acc ((xs ++ [x]).getD i d)) init
            = (List.range xs.length).foldl (fun acc i => f acc (xs.getD i d)) init := by
        refine List.foldl_ext _ _ init (fun acc i hi => ?_)
        rw [List.getD_append _ _ _ _ (List.mem_range.mp hi)]
      rw [hinner, ih init]
      simp [List.getD_append_right xs [x] d xs.length le_rfl]

/-- One step of the covariance accumulation preserves the `m × m`
shape. -/
theorem matAdd_shape {c : Nat} :
    ∀ (A B : List (List ℚ)), A.length = B.length →
      (∀ row ∈ A, row.length = c) → (∀ row ∈ B, row.length = c) →
      (matAdd A B).length = A.length ∧ ∀ row ∈ matAdd A B, row.length = c := by
  intro A
  induction A with
  | nil => intro B _ _ _; simp [matAdd]
  | cons a as ih =>
      intro B hlen ha hb
      cases B with
      | nil => simp at hlen
      | cons b bs =>
          have hlen' : as.length = bs.length := by simpa using hlen
          obtain ⟨ih1, ih2⟩ := ih bs hlen'
            (fun row hrow => ha row (List.mem_cons_of_mem _ hrow))
            (fun row hrow => hb row (List.mem_cons_of_mem _ hrow))
          constructor
          · simp [matAdd, List.length_zipWith, hlen']
          · intro row hrow
            rcases List.mem_cons.mp hrow with hhead | htail
            · subst hhead
              rw [List.length_zipWith, ha a (List.mem_cons_self a as),
                hb b (List.mem_cons_self b bs), min_self]
            · exact ih2 row htail

/-- The accumulated sum of outer products of length-`m` rows keeps the
`m × m` shape of its accumulator. -/
theorem foldl_outer_shape (m : Nat) :
    ∀ (G : List (List ℚ)), (∀ g ∈ G, g.length = m) →
      ∀ (A : List (List ℚ)), A.length = m → (∀ row ∈ A, row.length = m) →
      (G.foldl (fun acc g => matAdd acc (np_outer g g)) A).length = m ∧
      ∀ row ∈ G.foldl (fun acc g => matAdd acc (np_outer g g)) A, row.length = m := by
  intro G
  induction G with
  | nil => intro _ A hA hrows; exact ⟨hA, hrows⟩
  | cons g gs ih =>
      intro hG A hA hrows
      have hg : g.length = m := hG g (List.mem_cons_self g gs)
      have houter_len : (np_outer g g).length = m := by simp [np_outer, hg]
      have houter_rows : ∀ row ∈ np_outer g g, row.length = m := by
        intro row hrow
        simp only [np_outer, List.mem_map] at hrow
        obtain ⟨x, -, rfl⟩ := hrow
        simp [hg]
      obtain ⟨h1, h2⟩ := matAdd_shape A (np_outer g g) (by rw [hA, houter_len]) hrows houter_rows
      simpa using ih (fun x hx => hG x (List.mem_cons_of_mem _ hx)) _ (h1.trans hA) h2

/-- C5: `covariance` computes exactly the spec formula
`(1/M) * Σ_i g_i g_iᵀ` over the `M` rows of the gradient matrix, the
result has shape `m × m`, and it is invariant under any permutation of
the gradient rows. -/
theorem covariance_spec_perm_invariant (M m : Nat) (G Gp : List (List ℚ))
    (hM : G.length = M) (hrows : ∀ g ∈ G, g.length = m) (hperm : G.Perm Gp) :
    covariance M m G = specCovariance M m G ∧
    covariance M m G = covariance M m Gp ∧
    isShape (covariance M m G) m m = true := by
  haveI : RightCommutative (fun (acc : List (List ℚ)) (g : List ℚ) =>
      matAdd acc (np_outer g g)) :=
    ⟨fun b a₁ a₂ => matAdd_right_comm b (np_outer a₁ a₁) (np_outer a₂ a₂)⟩
  have key : ∀ (L : List (List ℚ)), L.length = M →
      covariance M m L = specCovariance M m L := by
    intro L hL
    unfold covariance specCovariance
    rw [← hL, foldl_range_getD (fun acc g => matAdd acc (np_outer g g)) [] L (matZeros m m)]
  have hMp : Gp.length = M := hperm.length_eq ▸ hM
  have hfold : G.foldl (fun acc g => matAdd acc (np_outer g g)) (matZeros m m)
      = Gp.foldl (fun acc g => matAdd acc (np_outer g g)) (matZeros m m) :=
    hperm.foldl_eq (matZeros m m)
  refine ⟨key G hM, ?_, ?_⟩
  · rw [key G hM, key Gp hMp]
    unfold specCovariance
    rw [hfold]
  · rw [key G hM]
    obtain ⟨h1, h2⟩ := foldl_outer_shape m G hrows (matZeros m m)
      (by simp [matZeros]) (by intro row hrow; simp [matZeros] at hrow; simp [hrow])
    simp only [specCovariance, matDivScalar, isShape, List.length_map, h1,
      beq_self_eq_true, Bool.true_and, List.all_eq_true]
    intro row hrow
    simp only [List.mem_map] at hrow
    obtain ⟨r, hr, rfl⟩ := hrow
    simp [h2 r hr]

/-- C5 witness: the theorem at the concrete gradient matrix
`[[1, 2], [3, 4]]` and its row-swapped permutation. -/
theorem covariance_spec_perm_invariant_witness :
    covariance 2 2 [[1, 2], [3, 4]] = specCovariance 2 2 [[1, 2], [3, 4]] ∧
    covariance 2 2 [[1, 2], [3, 4]] = covariance 2 2 [[3, 4], [1, 2]] ∧
    isShape (covariance 2 2 [[1, 2], [3, 4]]) 2 2 = true :=
  covariance_spec_perm_invariant 2 2 [[1, 2], [3, 4]] [[3, 4], [1, 2]] rfl
    (by decide) (by decide)

/-- C6 amended: serializing a container and deserializing the record
into a freshly constructed container of the same `(M, m)` with
`overwrite = True` reproduces the original coordinate array, and the
value array if present, exactly (with the default `overwrite = False`
the load refuses, because construction already populates a sample
array). -/
theorem save_load_roundtrip_with_overwrite (M m : Nat) (rand : List (List ℚ))
    (s : SamplingState) (A : List (List ℚ))
    (_hM : s.M = M) (_hm : s.m = m) (hA : s.array = some A)
    (hsh : isShape A M m = true) (hM0 : 0 < M) (hm0 : 0 < m)
    (fresh : SamplingState) (hfresh : sampling.init M m rand = Except.ok fresh) :
    load fresh (save s) true
      = Except.ok { fresh with array := some A, values := s.values } := by
  simp only [sampling.init] at hfresh
  rw [if_neg (by omega), if_neg (by omega)] at hfresh
  injection hfresh with hfresh
  subst hfresh
  have hsave : (save s).arrayData = A := by simp [save, hA]
  have hsavev : (save s).valuesData = s.values := rfl
  simp only [load, hsave, hsavev, hsh]
  rw [if_neg (by simp)]
  rw [if_pos (by simp)]
  cases hv : s.values <;> simp

/-- C6 amended witness: the round trip at the concrete container holding
`[[1/2]]` with value array `[3]`, loaded with `overwrite = True` into a
fresh `(1, 1)` container constructed from the draw `[[0]]`. -/
theorem save_load_roundtrip_with_overwrite_witness :
    load ⟨1, 1, some [[0]], none⟩ (save cSampD) true
      = Except.ok ⟨1, 1, some [[1/2]], some [3]⟩ :=
  save_load_roundtrip_with_overwrite 1 1 [[0]] cSampD [[1/2]] rfl rfl rfl
    (by decide) (by decide) (by decide) ⟨1, 1, some [[0]], none⟩ rfl

/-- C7 amended: every container operation preserves the coordinate-shape
invariant (the sample array always has shape `(M, m)`, with `add_sample`
growing `M` by one), and the value-length invariant is preserved by
`random_uniform`, `replace`, `assign_values`, `assign_value`, and by
`load` whenever the loaded record's value entry (if any) has length `M`;
`add_sample`, however, increments `M` while leaving an existing value
array untouched, so it does not preserve the value-length invariant. -/
theorem container_shape_invariants (s : SamplingState)
    (hc : coordInv s = true) (hv : valInv s = true) :
    (∀ rand ow s2, isShape rand s.M s.m = true →
      random_uniform s rand ow = Except.ok s2 →
      coordInv s2 = true ∧ valInv s2 = true) ∧
    (∀ i sample s2, replace s i sample = Except.ok s2 →
      coordInv s2 = true ∧ valInv s2 = true) ∧
    (∀ sample rand s2, rand.length = s.m →
      add_sample s sample rand = Except.ok s2 →
      coordInv s2 = true ∧ s2.M = s.M + 1 ∧ s2.values = s.values) ∧
    (∀ f, coordInv (assign_values s f) = true ∧ valInv (assign_values s f) = true) ∧
    (∀ i v s2, assign_value s i v = Except.ok s2 →
      coordInv s2 = true ∧ valInv s2 = true) ∧
    (∀ data ow s2, (∀ vd, data.valuesData = some vd → vd.length = s.M) →
      load s data ow = Except.ok s2 →
      coordInv s2 = true ∧ valInv s2 = true) := by
  obtain ⟨A, hA, hlenA, hrowsA⟩ :
      ∃ A, s.array = some A ∧ A.length = s.M ∧ ∀ row ∈ A, row.length = s.m := by
    unfold coordInv at hc
    cases hsA : s.array with
    | none => rw [hsA] at hc; simp at hc
    | some A =>
        rw [hsA] at hc
        simp only [isShape, Bool.and_eq_true, beq_iff_eq, List.all_eq_true] at hc
        exact ⟨A, rfl, hc.1, fun row hrow => by simpa using hc.2 row hrow⟩
  have hgetA : s.array.getD [] = A := by rw [hA]; rfl
  refine ⟨?_, ?_, ?_, ?_, ?_, ?_⟩
  · intro rand ow s2 hshape hok
    unfold random_uniform at hok
    split at hok
    · injection hok with hok
      subst hok
      refine ⟨by simpa [coordInv] using hshape, by simpa [valInv] using hv⟩
    · exact absurd hok (by simp)
  · intro i sample s2 hok
    unfold replace at hok
    split at hok
    · exact absurd hok (by simp)
    · split at hok
      · exact absurd hok (by simp)
      · rename_i hi hsample
        injection hok with hok
        subst hok
        refine ⟨?_, by simpa [valInv] using hv⟩
        simp only [coordInv, hgetA, isShape, Bool.and_eq_true, beq_iff_eq,
          List.all_eq_true, List.length_set]
        refine ⟨hlenA, fun row hrow => ?_⟩
        rcases List.mem_or_eq_of_mem_set hrow with hmem | hrow'
        · simpa using hrowsA row hmem
        · subst hrow'
          simpa using Decidable.not_not.mp hsample
  · intro sample rand s2 hrand hok
    have hshape : ∀ row : List ℚ, row.length = s.m →
        coordInv { s with array := some ((s.array.getD []) ++ [row]), M := s.M + 1 } = true := by
      intro row hrow
      simp only [coordInv, hgetA, isShape, Bool.and_eq_true, beq_iff_eq,
        List.all_eq_true, List.length_append, List.length_cons, List.length_nil]
      refine ⟨by omega, fun x hx => ?_⟩
      rcases List.mem_append.mp hx with hmem | hmem
      · simpa using hrowsA x hmem
      · simp only [List.mem_singleton] at hmem
        subst hmem
        simpa using hrow
    cases sample with
    | none =>
        simp only [add_sample] at hok
        injection hok with hok
        subst hok
        exact ⟨hshape rand hrand, rfl, rfl⟩
    | some smp =>
        simp only [add_sample] at hok
        split at hok
        · rename_i hsmp
          injection hok with hok
          subst hok
          exact ⟨hshape smp hsmp, rfl, rfl⟩
        · exact absurd hok (by simp)
  · intro f
    refine ⟨by simpa [coordInv, assign_values] using hc, ?_⟩
    simp only [valInv, assign_values, hgetA, List.length_map, beq_iff_eq]
    exact hlenA
  · intro i v s2 hok
    unfold assign_value at hok
    split at hok
    · exact absurd hok (by simp)
    · injection hok with hok
      subst hok
      refine ⟨by simpa [coordInv] using hc, ?_⟩
      cases hval : s.values with
      | none => simp [valInv, hval, List.length_set, List.length_replicate]
      | some vs =>
          have : vs.length = s.M := by
            unfold valInv at hv
            rw [hval] at hv
            simpa using hv
          simp [valInv, hval, List.length_set, this]
  · intro data ow s2 hvd hok
    unfold load at hok
    split at hok
    · exact absurd hok (by simp)
    · rename_i hshape
      split at hok
      · injection hok with hok
        subst hok
        refine ⟨by simpa [coordInv] using Decidable.not_not.mp hshape, ?_⟩
        cases hdv : data.valuesData with
        | none =>
            unfold valInv at hv ⊢
            simpa [hdv] using hv
        | some vd => simp [valInv, hdv, hvd vd hdv]
      · exact absurd hok (by simp)

/-- C7 amended witness: the theorem at the concrete valued container
`cSampA`, exercising the `add_sample` conjunct (shape kept, `M` grown,
values untouched) and the `assign_values` conjunct. -/
theorem container_shape_invariants_witness :
    (coordInv ⟨2, 1, some [[0], [1]], some [5]⟩ = true ∧
     (⟨2, 1, some [[0], [1]], some [5]⟩ : SamplingState).M = cSampA.M + 1 ∧
     (⟨2, 1, some [[0], [1]], some [5]⟩ : SamplingState).values = cSampA.values) ∧
    (coordInv (assign_values cSampA (fun _ => 0)) = true ∧
     valInv (assign_values cSampA (fun _ => 0)) = true) :=
  ⟨(container_shape_invariants cSampA (by decide) (by decide)).2.2.1
      (some [1]) [0] ⟨2, 1, some [[0], [1]], some [5]⟩ (by decide) (by decide),
   (container_shape_invariants cSampA (by decide) (by decide)).2.2.2.1 (fun _ => 0)⟩

/-- Reading a list at the position just overwritten returns the written
value. -/
theorem getD_set_self {α : Type} (l : List α) (n : Nat) (x d : α) (h : n < l.length) :
    (l.set n x).getD n d = x := by
  rw [List.getD_eq_getElem _ _ (by simpa using h)]
  exact List.getElem_set_self _

/-- Overwriting one position leaves reads at other positions unchanged. -/
theorem getD_set_ne {α : Type} (l : List α) (a n : Nat) (x d : α) (hne : n ≠ a) :
    (l.set n x).getD a d = l.getD a d := by
  rcases lt_or_ge a l.length with hlt | hge
  · rw [List.getD_eq_getElem _ _ (by simpa using hlt), List.getD_eq_getElem _ _ hlt]
    exact List.getElem_set_ne hne _
  · rw [List.getD_eq_default _ _ (by simpa using hge), List.getD_eq_default _ _ hge]

/-- A caller-side write through an object reference is visible at that
address. -/
theorem heap_get_writeEntry_self (hp : Heap) (a : Addr) (i j : Nat) (v : ℚ)
    (h : a < hp.data.length) :
    (hp.writeEntry a i j v).get a = setEntry (hp.get a) i j v :=
  getD_set_self _ _ _ _ h

/-- A caller-side write into a fresh `np.copy` is invisible at the
copied address. -/
theorem heap_get_write_copy (hp : Heap) (a : Addr) (i j : Nat) (v : ℚ)
    (h : a < hp.data.length) :
    Heap.get ((np_copy hp a).1.writeEntry (np_copy hp a).2 i j v) a = Heap.get hp a := by
  have hne : hp.data.length ≠ a := ne_of_gt h
  show ((hp.data ++ [hp.get a]).set hp.data.length _).getD a [] = hp.data.getD a []
  rw [getD_set_ne _ _ _ _ _ hne]
  exact List.getD_append _ _ _ _ h

/-- C2 amended: `samples()` returns the internal array object itself and
`estimation()` returns the internal eigenvector and eigenvalue objects,
while `partition()` returns column-slice views into the internal
eigenvector matrix, so an in-place write through any of these returned
objects changes the instance's internal arrays; by contrast the
`eigenvalues()` accessor goes through `np.copy`, and a write into such a
copy leaves the copied internal object unchanged. -/
theorem accessors_hand_out_references (hp : Heap) (s : SamplingRef) (eng : EngineRef)
    (n i j : Nat) (v : ℚ)
    (hs : s.arrayAddr < hp.data.length) (he : eng.eigvecsAddr < hp.data.length) :
    samplesRef s = s.arrayAddr ∧
    Heap.get (hp.writeEntry (samplesRef s) i j v) s.arrayAddr
      = setEntry (Heap.get hp s.arrayAddr) i j v ∧
    estimationRef eng = (eng.eigvecsAddr, eng.eigvalsAddr) ∧
    Heap.get (hp.writeEntry (estimationRef eng).1 i j v) eng.eigvecsAddr
      = setEntry (Heap.get hp eng.eigvecsAddr) i j v ∧
    Heap.get (hp.writeView (partitionRef eng n).1 i j v) eng.eigvecsAddr
      = setEntry (Heap.get hp eng.eigvecsAddr) i (0 + j) v ∧
    Heap.get (hp.writeView (partitionRef eng n).2 i j v) eng.eigvecsAddr
      = setEntry (Heap.get hp eng.eigvecsAddr) i (n + j) v ∧
    Heap.get ((np_copy hp s.arrayAddr).1.writeEntry (np_copy hp s.arrayAddr).2 i j v)
      s.arrayAddr = Heap.get hp s.arrayAddr :=
  ⟨rfl,
   heap_get_writeEntry_self hp s.arrayAddr i j v hs,
   rfl,
   heap_get_writeEntry_self hp eng.eigvecsAddr i j v he,
   heap_get_writeEntry_self hp eng.eigvecsAddr i (0 + j) v he,
   heap_get_writeEntry_self hp eng.eigvecsAddr i (n + j) v he,
   heap_get_write_copy hp s.arrayAddr i j v hs⟩

/-- C2 amended witness: the theorem at a concrete two-object heap
(sample array `[[0]]` at address 0, eigenvector matrix `[[1, 2], [3, 4]]`
at address 1) with the write `arr[0, 0] = 7`. -/
theorem accessors_hand_out_references_witness :
    samplesRef ⟨1, 1, 0⟩ = (⟨1, 1, 0⟩ : SamplingRef).arrayAddr ∧
    Heap.get (Heap.writeEntry ⟨[[[0]], [[1, 2], [3, 4]]]⟩ (samplesRef ⟨1, 1, 0⟩) 0 0 7)
      ((⟨1, 1, 0⟩ : SamplingRef).arrayAddr)
      = setEntry (Heap.get ⟨[[[0]], [[1, 2], [3, 4]]]⟩ ((⟨1, 1, 0⟩ : SamplingRef).arrayAddr)) 0 0 7 ∧
    estimationRef ⟨1, 0⟩
      = ((⟨1, 0⟩ : EngineRef).eigvecsAddr, (⟨1, 0⟩ : EngineRef).eigvalsAddr) ∧
    Heap.get (Heap.writeEntry ⟨[[[0]], [[1, 2], [3, 4]]]⟩ (estimationRef ⟨1, 0⟩).1 0 0 7)
      ((⟨1, 0⟩ : EngineRef).eigvecsAddr)
      = setEntry (Heap.get ⟨[[[0]], [[1, 2], [3, 4]]]⟩ ((⟨1, 0⟩ : EngineRef).eigvecsAddr)) 0 0 7 ∧
    Heap.get (Heap.writeView ⟨[[[0]], [[1, 2], [3, 4]]]⟩ (partitionRef ⟨1, 0⟩ 1).1 0 0 7)
      ((⟨1, 0⟩ : EngineRef).eigvecsAddr)
      = setEntry (Heap.get ⟨[[[0]], [[1, 2], [3, 4]]]⟩ ((⟨1, 0⟩ : EngineRef).eigvecsAddr)) 0 (0 + 0) 7 ∧
    Heap.get (Heap.writeView ⟨[[[0]], [[1, 2], [3, 4]]]⟩ (partitionRef ⟨1, 0⟩ 1).2 0 0 7)
      ((⟨1, 0⟩ : EngineRef).eigvecsAddr)
      = setEntry (Heap.get ⟨[[[0]], [[1, 2], [3, 4]]]⟩ ((⟨1, 0⟩ : EngineRef).eigvecsAddr)) 0 (1 + 0) 7 ∧
    Heap.get ((np_copy ⟨[[[0]], [[1, 2], [3, 4]]]⟩ ((⟨1, 1, 0⟩ : SamplingRef).arrayAddr)).1.writeEntry
        (np_copy ⟨[[[0]], [[1, 2], [3, 4]]]⟩ ((⟨1, 1, 0⟩ : SamplingRef).arrayAddr)).2 0 0 7)
      ((⟨1, 1, 0⟩ : SamplingRef).arrayAddr)
      = Heap.get ⟨[[[0]], [[1, 2], [3, 4]]]⟩ ((⟨1, 1, 0⟩ : SamplingRef).arrayAddr) :=
  accessors_hand_out_references ⟨[[[0]], [[1, 2], [3, 4]]]⟩ ⟨1, 1, 0⟩ ⟨1, 0⟩ 1 0 0 7
    (by decide) (by decide)

/-- Folding `max` over a list of zeros starting from zero gives zero. -/
theorem foldl_max_zeros : ∀ k : Nat, (List.replicate k (0:ℚ)).foldl max 0 = 0 := by
  intro k
  induction k with
  | zero => rfl
  | succ n ih => simpa [List.replicate_succ, max_self] using ih

/-- Folding `min` over a list of zeros starting from zero gives zero. -/
theorem foldl_min_zeros : ∀ k : Nat, (List.replicate k (0:ℚ)).foldl min 0 = 0 := by
  intro k
  induction k with
  | zero => rfl
  | succ n ih => simpa [List.replicate_succ, min_self] using ih

/-- The `np.max` of a nonempty all-zero row is zero. -/
theorem npMaxRow_replicate_zero (k : Nat) : npMaxRow (List.replicate (k + 1) (0:ℚ)) = 0 := by
  simp only [List.replicate_succ, npMaxRow]
  exact foldl_max_zeros k

/-- The `np.min` of a nonempty all-zero row is zero. -/
theorem npMinRow_replicate_zero (k : Nat) : npMinRow (List.replicate (k + 1) (0:ℚ)) = 0 := by
  simp only [List.replicate_succ, npMinRow]
  exact foldl_min_zeros k

/-- The `np.mean` of an all-zero row is zero. -/
theorem npMeanRow_replicate_zero (k : Nat) : npMeanRow (List.replicate k (0:ℚ)) = 0 := by
  simp [npMeanRow, List.sum_replicate]

/-- C10: for every replicate count `M_boot ≥ 1` (and every gradient
matrix, original eigenvector matrix, index draw, eigensolver output and
norm values), the three subspace-distance aggregates returned by
`bootstrap` each have length `m`, and their entry at index `m - 1` is
exactly `0`: the per-replicate loop fills only dimension indices
`0 .. m - 2` of the zero-initialized distance matrix, and the max, min
and mean of an all-zero row are `0`. -/
theorem bootstrap_subspace_distance_last_zero
    (M m M_boot : Nat) (G W : List (List ℚ)) (randIdx : Nat → List Nat)
    (eigh : List (List ℚ) → List ℚ × List (List ℚ)) (norm2 : List (List ℚ) → ℚ)
    (hm : 1 ≤ m) (hb : 1 ≤ M_boot) :
    (bootstrap_sub M m M_boot G W randIdx eigh norm2).1.length = m ∧
    (bootstrap_sub M m M_boot G W randIdx eigh norm2).2.1.length = m ∧
    (bootstrap_sub M m M_boot G W randIdx eigh norm2).2.2.length = m ∧
    (bootstrap_sub M m M_boot G W randIdx eigh norm2).1.getD (m - 1) 0 = 0 ∧
    (bootstrap_sub M m M_boot G W randIdx eigh norm2).2.1.getD (m - 1) 0 = 0 ∧
    (bootstrap_sub M m M_boot G W randIdx eigh norm2).2.2.getD (m - 1) 0 = 0 := by
  obtain ⟨k, rfl⟩ : ∃ k, M_boot = k + 1 := ⟨M_boot - 1, by omega⟩
  set D := bootstrap_distances M m (k + 1) G W randIdx eigh norm2 with hD
  have hDlen : D.length = m := by simp [hD, bootstrap_distances]
  have h1 : m - 1 < D.length := by omega
  have hrow : D.getD (m - 1) [] = List.replicate (k + 1) 0 := by
    rw [List.getD_eq_getElem _ _ h1]
    simp only [hD, bootstrap_distances, List.getElem_map, List.getElem_range]
    have : ∀ i : Nat, (if m - 1 < m - 1 then
        norm2 (matTmul (W.take (m - 1 + 1))
          ((bootReplicateU M m G randIdx eigh i).drop (m - 1 + 1)))
      else (0:ℚ)) = 0 := fun i => if_neg (lt_irrefl _)
    simp only [this, List.map_const', List.length_range]
  have hlast : ∀ f : List ℚ → ℚ, (D.map f).getD (m - 1) 0 = f (List.replicate (k + 1) 0) := by
    intro f
    have h2 : m - 1 < (D.map f).length := by simpa using h1
    rw [List.getD_eq_getElem _ _ h2, List.getElem_map, ← List.getD_eq_getElem _ _ h1, hrow]
  refine ⟨?_, ?_, ?_, ?_, ?_, ?_⟩
  · show (D.map npMaxRow).length = m
    rw [List.length_map]
    exact hDlen
  · show (D.map npMinRow).length = m
    rw [List.length_map]
    exact hDlen
  · show (D.map npMeanRow).length = m
    rw [List.length_map]
    exact hDlen
  · show (D.map npMaxRow).getD (m - 1) 0 = 0
    rw [hlast npMaxRow]
    exact npMaxRow_replicate_zero k
  · show (D.map npMinRow).getD (m - 1) 0 = 0
    rw [hlast npMinRow]
    exact npMinRow_replicate_zero k
  · show (D.map npMeanRow).getD (m - 1) 0 = 0
    rw [hlast npMeanRow]
    exact npMeanRow_replicate_zero (k + 1)

/-- C10 witness: the theorem at the concrete instance `M = 1`, `m = 2`,
`M_boot = 1` with the gradient matrix `[[1, 2]]`, identity eigenvector
columns, and the concrete draw, eigensolver and norm stand-ins. -/
theorem bootstrap_subspace_distance_last_zero_witness :
    (bootstrap_sub 1 2 1 [[1, 2]] [[1, 0], [0, 1]] cRandIdx cEigh cNorm2).1.length = 2 ∧
    (bootstrap_sub 1 2 1 [[1, 2]] [[1, 0], [0, 1]] cRandIdx cEigh cNorm2).2.1.length = 2 ∧
    (bootstrap_sub 1 2 1 [[1, 2]] [[1, 0], [0, 1]] cRandIdx cEigh cNorm2).2.2.length = 2 ∧
    (bootstrap_sub 1 2 1 [[1, 2]] [[1, 0], [0, 1]] cRandIdx cEigh cNorm2).1.getD (2 - 1) 0 = 0 ∧
    (bootstrap_sub 1 2 1 [[1, 2]] [[1, 0], [0, 1]] cRandIdx cEigh cNorm2).2.1.getD (2 - 1) 0 = 0 ∧
    (bootstrap_sub 1 2 1 [[1, 2]] [[1, 0], [0, 1]] cRandIdx cEigh cNorm2).2.2.getD (2 - 1) 0 = 0 :=
  bootstrap_subspace_distance_last_zero 1 2 1 [[1, 2]] [[1, 0], [0, 1]]
    cRandIdx cEigh cNorm2 (by decide) (by decide)

/-- C8: `index` does not perform a whole-row linear scan.  The guard
`sample in self._array` and the lookup `np.where(self._array == sample)`
broadcast the sample across the rows, so a row counts as a hit as soon
as it agrees with the sample in a single position.  On the array
`[[5, 2], [1, 2]]`, looking up `[1, 2]` returns index 0 although row 0 is
not equal to `[1, 2]` (the first equal row is row 1); and on
`[[1, 2], [3, 4]]`, looking up `[1, 4]` returns index 0 instead of
failing, although no row equals `[1, 4]`. -/
theorem index_broadcast_lookup_bug :
    index cSampB [1, 2] = Except.ok 0 ∧
    (cSampB.array.getD []).getD 0 [] ≠ [1, 2] ∧
    (cSampB.array.getD []).getD 1 [] = [1, 2] ∧
    index cSampC [1, 4] = Except.ok 0 ∧
    (∀ row ∈ cSampC.array.getD [], row ≠ [1, 4]) := by
  decide

end ASF
